import Mathlib

/-!
A shallow embedding of `docs/kospi-widget.js`, a single-page widget that
loads a JSON dataset of stock rows, filters them by sector, name substring
and numeric ranges, sorts them by a column, and renders a table.

JavaScript numbers are modelled exactly as rationals extended with `NaN`
and the two infinities (`JNum`).  All comparisons follow IEEE semantics as
implemented by the JS relational operators: every ordered comparison with
`NaN` is false.  Rational arithmetic on the evaluation path is expressed
with `mkRat` and integer operations so that concrete instances reduce
inside the kernel.
-/

namespace KospiWidget

/-- The value space of a JS number: a finite rational, `NaN`, or an
infinity.  An absent (`undefined`) numeric field behaves like `NaN` in
every operation this widget performs on it (ordered comparisons are false
and `Number.isFinite` is false), so it is folded into `nan`. -/
inductive JNum where
  | fin (q : ℚ)
  | nan
  | posInf
  | negInf
deriving DecidableEq

/-- `Number.isFinite`. -/
def JNum.isFinite : JNum → Bool
  | .fin _ => true
  | _ => false

/-- `Number.isNaN` / global `isNaN` on an already-numeric value. -/
def JNum.isNaN : JNum → Bool
  | .nan => true
  | _ => false

/-- The JS `<` operator on numbers: false whenever either side is `NaN`. -/
def jlt : JNum → JNum → Bool
  | .fin a, .fin b => a < b
  | .fin _, .posInf => true
  | .negInf, .fin _ => true
  | .negInf, .posInf => true
  | _, _ => false

/-- The JS `>` operator on numbers. -/
def jgt (a b : JNum) : Bool := jlt b a

/-- The JS `>=` operator on numbers: false whenever either side is `NaN`. -/
def jge : JNum → JNum → Bool
  | .fin a, .fin b => b ≤ a
  | .posInf, .fin _ => true
  | .fin _, .negInf => true
  | .posInf, .posInf => true
  | .posInf, .negInf => true
  | .negInf, .negInf => true
  | _, _ => false

/-- JS subtraction, used by the numeric sort comparator `av - bv`.
The finite case is written with `mkRat` so that it evaluates in the
kernel; `jsub_fin` below identifies it with rational subtraction. -/
def jsub : JNum → JNum → JNum
  | .fin a, .fin b => .fin (mkRat (a.num * b.den - b.num * a.den) (a.den * b.den))
  | .fin _, .posInf => .negInf
  | .fin _, .negInf => .posInf
  | .posInf, .fin _ => .posInf
  | .negInf, .fin _ => .negInf
  | .posInf, .negInf => .posInf
  | .negInf, .posInf => .negInf
  | _, _ => .nan

/-- Whether a comparator result counts as `> 0` for `Array.prototype.sort`;
a `NaN` comparator result is treated as `+0` by `SortCompare`, hence
`false` here. -/
def jpos : JNum → Bool
  | .fin q => 0 < q
  | .posInf => true
  | _ => false

/-- Multiplication by the positive literal `10000`, used for
`parseFloat(capMinInput) * 10000`.  `scaleCapMin_fin` identifies the
finite case with rational multiplication. -/
def scaleCapMin : JNum → JNum
  | .fin q => .fin (mkRat (q.num * 10000) q.den)
  | .nan => .nan
  | .posInf => .posInf
  | .negInf => .negInf

theorem jsub_fin (a b : ℚ) : jsub (.fin a) (.fin b) = .fin (a - b) := by
  have ha : (a.den : ℚ) ≠ 0 := Nat.cast_ne_zero.mpr a.den_nz
  have hb : (b.den : ℚ) ≠ 0 := Nat.cast_ne_zero.mpr b.den_nz
  show JNum.fin _ = JNum.fin _
  congr 1
  rw [Rat.mkRat_eq_div]
  push_cast
  rw [mul_comm ((b.num : ℚ)) ((a.den : ℚ)), ← div_sub_div _ _ ha hb,
    Rat.num_div_den, Rat.num_div_den]

theorem scaleCapMin_fin (q : ℚ) : scaleCapMin (.fin q) = .fin (q * 10000) := by
  show JNum.fin _ = JNum.fin _
  congr 1
  rw [Rat.mkRat_eq_div]
  push_cast
  rw [mul_div_right_comm, Rat.num_div_den]

/-! ### Characters, digit strings and number formatting

Models of the string-producing builtins the widget uses:
`Number.prototype.toFixed(1)`, `Number.prototype.toLocaleString()`
(default locale options: grouped integer part, at most three rounded
fraction digits) and the pieces of `parseFloat` / `String` methods the
widget needs.  All functions work on `List Char` and are wrapped into
`String` at the end, so concrete instances reduce in the kernel. -/

/-- The decimal digit character for `n % 10`. -/
def digitChar (n : ℕ) : Char := Char.ofNat (48 + n % 10)

/-- Decimal digit list of a natural number, most significant first.
Implemented with fuel so that it is structurally recursive; `n + 1`
steps always suffice. -/
def natDigitsAux : ℕ → ℕ → List Char
  | 0, _ => []
  | fuel + 1, n => if n < 10 then [digitChar n] else natDigitsAux fuel (n / 10) ++ [digitChar (n % 10)]

/-- Decimal digit list of a natural number, most significant first. -/
def natDigits (n : ℕ) : List Char := natDigitsAux (n + 1) n

/-- Insert a `,` before every third character counted from the start of a
reversed digit list (`k` counts characters already emitted). -/
def groupRevAux : List Char → ℕ → List Char
  | [], _ => []
  | c :: rest, k =>
    (if k % 3 = 0 && k ≠ 0 then [','] else []) ++ c :: groupRevAux rest (k + 1)

/-- Thousands grouping of a digit list: `1234567` grouped is `1,234,567`. -/
def groupThousands (cs : List Char) : List Char := (groupRevAux cs.reverse 0).reverse

/-- Drop trailing `'0'` characters. -/
def trimZerosRight (cs : List Char) : List Char := (cs.reverse.dropWhile (· == '0')).reverse

/-- The fraction-digit characters for a fraction numerator `fp < 1000`
over `1000`: left-pad to three digits, then drop trailing zeros. -/
def fracChars3 (fp : ℕ) : List Char :=
  trimZerosRight (List.replicate (3 - (natDigits fp).length) '0' ++ natDigits fp)

/-- `⌊|q| * 10 + 1/2⌋` computed on the numerator and denominator, i.e. the
magnitude of the integer JS `toFixed(1)` scales by; ties round to the
larger candidate exactly as ECMA-262 prescribes. -/
def round10 (q : ℚ) : ℕ := (20 * q.num.natAbs + q.den) / (2 * q.den)

/-- `⌊|q| * 1000 + 1/2⌋`, the scaled magnitude used by the
`toLocaleString` default of at most three fraction digits (half-expand
rounding). -/
def round1000 (q : ℚ) : ℕ := (2000 * q.num.natAbs + q.den) / (2 * q.den)

/-- `q.toFixed(1)` as a character list: sign of the original value, then
the rounded magnitude with exactly one fraction digit. -/
def jsToFixed1Chars (q : ℚ) : List Char :=
  (if q < 0 then ['-'] else []) ++
    (natDigits (round10 q / 10) ++ ['.', digitChar (round10 q % 10)])

/-- `q.toLocaleString()` as a character list: sign, grouped integer part,
and up to three rounded fraction digits with trailing zeros removed. -/
def jsToLocaleChars (q : ℚ) : List Char :=
  (if q < 0 then ['-'] else []) ++
    (groupThousands (natDigits (round1000 q / 1000)) ++
      (if round1000 q % 1000 = 0 then [] else '.' :: fracChars3 (round1000 q % 1000)))

/-- `toLocaleString` on a possibly non-finite JS number. -/
def jnumToLocale : JNum → String
  | .fin q => String.mk (jsToLocaleChars q)
  | .nan => "NaN"
  | .posInf => "∞"
  | .negInf => "-∞"

/-- `toFixed(1)` on a possibly non-finite JS number. -/
def jnumToFixed1 : JNum → String
  | .fin q => String.mk (jsToFixed1Chars q)
  | .nan => "NaN"
  | .posInf => "Infinity"
  | .negInf => "-Infinity"

/-- Division of a JS number by the positive literal `10000`
(`cap / 10000` in the renderer); `jdiv10000_fin` identifies the finite
case with rational division. -/
def jdiv10000 : JNum → JNum
  | .fin q => .fin (mkRat q.num (q.den * 10000))
  | .nan => .nan
  | .posInf => .posInf
  | .negInf => .negInf

theorem jdiv10000_fin (q : ℚ) : jdiv10000 (.fin q) = .fin (q / 10000) := by
  show JNum.fin _ = JNum.fin _
  congr 1
  rw [Rat.mkRat_eq_div]
  push_cast
  rw [← div_div, Rat.num_div_den]

example : String.mk (jsToFixed1Chars (mkRat 12345 10000)) = "1.2" := by decide
example : String.mk (jsToLocaleChars 9999) = "9,999" := by decide
example : String.mk (jsToLocaleChars 1234567) = "1,234,567" := by decide

/-! ### String builtins: `parseFloat`, `trim`, `toLowerCase`, `indexOf` -/

/-- Numeric value of a list of decimal digit characters. -/
def natOfDigits (cs : List Char) : ℕ := cs.foldl (fun a c => a * 10 + (c.toNat - 48)) 0

/-- `parseFloat` on a character list: skip leading whitespace, optional
sign, integer digits, optional `.` and fraction digits; any trailing
garbage is ignored; if no digit is found the result is `NaN`.  This
covers plain decimal notation; exponent notation and the literal
`Infinity`, which no control of this widget receives, are not modelled. -/
def parseFloatChars (cs : List Char) : JNum :=
  let cs1 := cs.dropWhile Char.isWhitespace
  let neg : Bool := match cs1 with
    | '-' :: _ => true
    | _ => false
  let cs2 : List Char := match cs1 with
    | '-' :: r => r
    | '+' :: r => r
    | _ => cs1
  let ip := cs2.takeWhile Char.isDigit
  let rest := cs2.dropWhile Char.isDigit
  let fp : List Char := match rest with
    | '.' :: r => r.takeWhile Char.isDigit
    | _ => []
  if ip.isEmpty && fp.isEmpty then .nan
  else
    .fin (mkRat ((if neg then -1 else 1) * (natOfDigits ip * 10 ^ fp.length + natOfDigits fp))
      (10 ^ fp.length))

/-- `parseFloat(s)`. -/
def parseFloatJS (s : String) : JNum := parseFloatChars s.data

/-- ASCII lower-casing of one character, as `toLowerCase` acts on the
ASCII range (Hangul and the other characters in this dataset have no
case mapping). -/
def toLowerChar (c : Char) : Char :=
  if 'A' ≤ c && c ≤ 'Z' then Char.ofNat (c.toNat + 32) else c

/-- `s.toLowerCase()` on a character list. -/
def lowerChars (cs : List Char) : List Char := cs.map toLowerChar

/-- `s.trim()` on a character list: remove leading and trailing
whitespace. -/
def trimChars (cs : List Char) : List Char :=
  ((cs.dropWhile Char.isWhitespace).reverse.dropWhile Char.isWhitespace).reverse

/-- Is the first list a prefix of the second? -/
def isPre : List Char → List Char → Bool
  | [], _ => true
  | _ :: _, [] => false
  | a :: as, b :: bs => a == b && isPre as bs

/-- `hay.indexOf(needle) !== -1`: does `needle` occur as a contiguous
substring of `hay`? -/
def hasSub (needle : List Char) : List Char → Bool
  | [] => needle.isEmpty
  | c :: t => isPre needle (c :: t) || hasSub needle t

/-- Substring containment on `String`s. -/
def strContains (hay sub : String) : Bool := hasSub sub.data hay.data

theorem isPre_self_append (n post : List Char) : isPre n (n ++ post) = true := by
  induction n with
  | nil => rfl
  | cons a as ih => simp [isPre, ih]

theorem hasSub_append (pre n post : List Char) : hasSub n (pre ++ (n ++ post)) = true := by
  induction pre with
  | nil =>
    cases n with
    | nil =>
      cases post with
      | nil => rfl
      | cons c t => simp [hasSub, isPre]
    | cons a as =>
      simp only [List.nil_append, hasSub, Bool.or_eq_true]
      exact Or.inl (isPre_self_append (a :: as) post)
  | cons c t ih =>
    simp only [List.cons_append, hasSub, Bool.or_eq_true]
    exact Or.inr ih

example : parseFloatJS "" = .nan := by decide
example : parseFloatJS "abc" = .nan := by decide
example : parseFloatJS "12.5x" = .fin (mkRat 125 10) := by decide
example : parseFloatJS "-3" = .fin (-3 : ℚ) := by decide
example : parseFloatJS ".5" = .fin (mkRat 5 10) := by decide
example : hasSub "삼성".data "삼성전자".data = true := by decide
example : lowerChars (trimChars "  KaKao ".data) = "kakao".data := by decide

/-! ### Code-point lexicographic string order

`localeCompare(·, "ko")` and the comparator-less `Array.prototype.sort`
are modelled as code-point lexicographic comparison.  On the Hangul
syllable strings of this dataset the Unicode code-point order coincides
with Korean alphabetical (locale) order, and on the UTF-16 code-unit
level it coincides with the default sort order, so one comparison models
both call sites. -/

/-- Strict lexicographic order on character lists by code point. -/
def lexLt : List Char → List Char → Bool
  | [], [] => false
  | [], _ :: _ => true
  | _ :: _, [] => false
  | a :: as, b :: bs =>
    if a.toNat < b.toNat then true
    else if b.toNat < a.toNat then false
    else lexLt as bs

theorem lexLt_asymm : ∀ a b : List Char, lexLt a b = true → lexLt b a = false
  | [], [], h => by simp [lexLt] at h
  | [], _ :: _, _ => rfl
  | _ :: _, [], h => by simp [lexLt] at h
  | a :: as, b :: bs, h => by
    simp only [lexLt] at h ⊢
    rcases Nat.lt_trichotomy a.toNat b.toNat with hab | hab | hab
    · simp [hab, Nat.lt_asymm hab]
    · simp only [hab, Nat.lt_irrefl, if_false] at h ⊢
      exact lexLt_asymm as bs h
    · simp [hab, Nat.lt_asymm hab] at h

theorem lexLt_trans : ∀ a b c : List Char,
    lexLt a b = true → lexLt b c = true → lexLt a c = true
  | [], b, [], hab, hbc => by
    cases b with
    | nil => simp [lexLt] at hab
    | cons x xs => simp [lexLt] at hbc
  | [], _, _ :: _, _, _ => rfl
  | _ :: _, [], _, hab, _ => by simp [lexLt] at hab
  | _ :: _, _ :: _, [], _, hbc => by simp [lexLt] at hbc
  | a :: as, b :: bs, c :: cs, hab, hbc => by
    simp only [lexLt] at hab hbc ⊢
    rcases Nat.lt_trichotomy a.toNat b.toNat with h1 | h1 | h1
    · rcases Nat.lt_trichotomy b.toNat c.toNat with h2 | h2 | h2
      · simp [Nat.lt_trans h1 h2]
      · simp [h2 ▸ h1]
      · simp [Nat.lt_asymm h2, h2] at hbc
    · have hc : a = b := Char.eq_of_val_eq (UInt32.ext h1)
      subst hc
      simp only [Nat.lt_irrefl, if_false] at hab
      rcases Nat.lt_trichotomy a.toNat c.toNat with h2 | h2 | h2
      · simp [h2]
      · have hc2 : a = c := Char.eq_of_val_eq (UInt32.ext h2)
        subst hc2
        simp only [Nat.lt_irrefl, if_false] at hbc ⊢
        exact lexLt_trans as bs cs hab hbc
      · simp [Nat.lt_asymm h2, h2] at hbc
    · simp [Nat.lt_asymm h1, h1] at hab

theorem lexLt_eq_of_not : ∀ a b : List Char,
    lexLt a b = false → lexLt b a = false → a = b
  | [], [], _, _ => rfl
  | [], _ :: _, hab, _ => by simp [lexLt] at hab
  | _ :: _, [], _, hba => by simp [lexLt] at hba
  | a :: as, b :: bs, hab, hba => by
    simp only [lexLt] at hab hba
    rcases Nat.lt_trichotomy a.toNat b.toNat with h1 | h1 | h1
    · simp [h1] at hab
    · have hc : a = b := Char.eq_of_val_eq (UInt32.ext h1)
      subst hc
      simp only [Nat.lt_irrefl, if_false] at hab hba
      rw [lexLt_eq_of_not as bs hab hba]
    · simp [h1, Nat.lt_asymm h1] at hba

/-- Transitivity of the reflexive order `¬(b < a)` induced by `lexLt`. -/
theorem lexLt_false_trans (a b c : List Char)
    (hba : lexLt b a = false) (hcb : lexLt c b = false) : lexLt c a = false := by
  cases hca : lexLt c a with
  | false => rfl
  | true =>
    cases hbc : lexLt b c with
    | true =>
      have := lexLt_trans b c a hbc hca
      rw [this] at hba
      exact hba
    | false =>
      have := lexLt_eq_of_not b c hbc hcb
      subst this
      rw [hca] at hba
      exact hba

/-! ### Data model: rows and column descriptors -/

/-- One dataset row.  Field names follow the JSON keys: `ticker` is
`"티커"`, `name` is `"종목명"`, `sector` is `"섹터"` (the empty string
models an absent sector, which is falsy exactly like `""`), `cap` is
`"시가총액(억)"`, and `per`, `pbr`, `eps`, `bps` are the ratio fields. -/
structure Row where
  ticker : String
  name : String
  sector : String
  cap : JNum
  per : JNum
  pbr : JNum
  eps : JNum
  bps : JNum
deriving DecidableEq

/-- One column descriptor from the static `COLS` array. -/
structure Col where
  key : String
  label : String
  alignLeft : Bool
  sortable : Bool
deriving DecidableEq

/-- The market-cap column key `"시가총액(억)"`. -/
def capKey : String := "시가총액(억)"

/-- The static column descriptor list: the synthetic rank column `"#"`
(not sortable) followed by the eight data columns (all sortable). -/
def COLS : List Col :=
  [⟨"#", "#", false, false⟩,
   ⟨"티커", "티커", true, true⟩,
   ⟨"종목명", "종목명", true, true⟩,
   ⟨"섹터", "섹터", true, true⟩,
   ⟨capKey, "시가총액", false, true⟩,
   ⟨"PER", "PER", false, true⟩,
   ⟨"PBR", "PBR", false, true⟩,
   ⟨"EPS", "EPS", false, true⟩,
   ⟨"BPS", "BPS", false, true⟩]

/-- The keys of the sortable columns. -/
def sortableKeys : List String := (COLS.filter Col.sortable).map Col.key

/-- A JS property value of a row: the string fields hold strings, the
numeric fields hold numbers. -/
inductive JVal where
  | str (s : String)
  | num (n : JNum)
deriving DecidableEq

/-- Dynamic property access `r[key]`.  An unknown key would be
`undefined` in JS; it is mapped to `NaN`, which is observationally
equivalent for every use the widget makes of a sort value, and theorem
`sortKey_always_sortable` shows that the sort key never leaves `COLS`. -/
def Row.get (r : Row) (k : String) : JVal :=
  if k = "티커" then .str r.ticker
  else if k = "종목명" then .str r.name
  else if k = "섹터" then .str r.sector
  else if k = capKey then .num r.cap
  else if k = "PER" then .num r.per
  else if k = "PBR" then .num r.pbr
  else if k = "EPS" then .num r.eps
  else if k = "BPS" then .num r.bps
  else .num .nan

/-! ### The sort comparator and the stable sort -/

/-- The comparator of `render`, digested into the "keep `a` before `b`"
relation used by a stable sort: `Array.prototype.sort` keeps `a` before
`b` exactly when the comparator result is not positive (a `NaN` result
counts as `+0`).  Numbers compare by `av - bv` (or `bv - av` when
descending); other values compare by Korean-locale string comparison.
The widget's columns are homogeneously typed, so the mixed cases are
unreachable; they are mapped to ties. -/
def rowLe (sortAsc : Bool) (k : String) (a b : Row) : Bool :=
  match a.get k, b.get k with
  | .num av, .num bv => !(jpos (if sortAsc then jsub av bv else jsub bv av))
  | .str av, .str bv =>
    if sortAsc then !(lexLt bv.data av.data) else !(lexLt av.data bv.data)
  | _, _ => true

/-- Insert `x` into `l` before the first element `y` with `le x y`;
the insertion step of a stable insertion sort. -/
def stableInsert (le : α → α → Bool) (x : α) : List α → List α
  | [] => [x]
  | y :: ys => if le x y then x :: y :: ys else y :: stableInsert le x ys

/-- Stable sort by the "keep before" relation `le`.  With a consistent
comparator (the only case in which ECMA-262 pins the result down) the
stable order is unique, so this models `Array.prototype.sort`. -/
def stableSort (le : α → α → Bool) : List α → List α
  | [] => []
  | x :: xs => stableInsert le x (stableSort le xs)

theorem stableInsert_perm (le : α → α → Bool) (x : α) :
    ∀ l : List α, (stableInsert le x l).Perm (x :: l)
  | [] => List.Perm.refl _
  | y :: ys => by
    simp only [stableInsert]
    cases le x y with
    | true => simp
    | false =>
      simp only [Bool.false_eq_true, if_false]
      exact ((stableInsert_perm le x ys).cons y).trans (List.Perm.swap x y ys)

theorem stableSort_perm (le : α → α → Bool) :
    ∀ l : List α, (stableSort le l).Perm l
  | [] => List.Perm.refl _
  | x :: xs =>
    (stableInsert_perm le x (stableSort le xs)).trans ((stableSort_perm le xs).cons x)

theorem mem_stableInsert (le : α → α → Bool) (x : α) (l : List α) (y : α) :
    y ∈ stableInsert le x l ↔ y = x ∨ y ∈ l := by
  rw [(stableInsert_perm le x l).mem_iff]
  simp

theorem mem_stableSort (le : α → α → Bool) (l : List α) (y : α) :
    y ∈ stableSort le l ↔ y ∈ l := (stableSort_perm le l).mem_iff

/-- Sortedness of `stableInsert`, with totality and transitivity of `le`
required only on elements satisfying `P`. -/
theorem pairwise_stableInsert (le : α → α → Bool) (P : α → Prop)
    (htot : ∀ a b, P a → P b → le a b = false → le b a = true)
    (htr : ∀ a b c, P a → P b → P c → le a b = true → le b c = true → le a c = true)
    (x : α) (hx : P x) :
    ∀ l : List α, (∀ a ∈ l, P a) → l.Pairwise (fun a b => le a b = true) →
      (stableInsert le x l).Pairwise (fun a b => le a b = true)
  | [], _, _ => by simp [stableInsert]
  | y :: ys, hP, hs => by
    have hPy : P y := hP y (by simp)
    have hPys : ∀ a ∈ ys, P a := fun a ha => hP a (by simp [ha])
    rw [List.pairwise_cons] at hs
    obtain ⟨hy, hys⟩ := hs
    simp only [stableInsert]
    cases hxy : le x y with
    | true =>
      simp only [if_true]
      refine List.Pairwise.cons ?_ (List.Pairwise.cons hy hys)
      intro z hz
      rcases List.mem_cons.mp hz with rfl | hz
      · exact hxy
      · exact htr x y z hx hPy (hPys z hz) hxy (hy z hz)
    | false =>
      simp only [Bool.false_eq_true, if_false]
      refine List.Pairwise.cons ?_ (pairwise_stableInsert le P htot htr x hx ys hPys hys)
      intro z hz
      rcases (mem_stableInsert le x ys z).mp hz with heq | hz
      · rw [heq]
        exact htot x y hx hPy hxy
      · exact hy z hz

/-- Sortedness of `stableSort`, with totality and transitivity of `le`
required only on elements satisfying `P`. -/
theorem pairwise_stableSort (le : α → α → Bool) (P : α → Prop)
    (htot : ∀ a b, P a → P b → le a b = false → le b a = true)
    (htr : ∀ a b c, P a → P b → P c → le a b = true → le b c = true → le a c = true) :
    ∀ l : List α, (∀ a ∈ l, P a) →
      (stableSort le l).Pairwise (fun a b => le a b = true)
  | [], _ => by simp [stableSort]
  | x :: xs, hP => by
    have hPx : P x := hP x (by simp)
    have hPxs : ∀ a ∈ xs, P a := fun a ha => hP a (by simp [ha])
    exact pairwise_stableInsert le P htot htr x hPx (stableSort le xs)
      (fun a ha => hPxs a ((mem_stableSort le xs a).mp ha))
      (pairwise_stableSort le P htot htr xs hPxs)

/-! ### Filter inputs and the filter predicate of `render` -/

/-- The raw string values of the seven filter controls (`kw-sector`,
`kw-search`, `kw-per-min`, `kw-per-max`, `kw-pbr-min`, `kw-pbr-max`,
`kw-cap-min`). -/
structure Inputs where
  sector : String
  search : String
  perMin : String
  perMax : String
  pbrMin : String
  pbrMax : String
  capMin : String
deriving DecidableEq

/-- All controls at their empty defaults. -/
def emptyInputs : Inputs := ⟨"", "", "", "", "", "", ""⟩

/-- `const search = ...value.trim().toLowerCase()` of `render`. -/
def searchOf (inp : Inputs) : List Char := lowerChars (trimChars inp.search.data)

/-- `const perMin = parseFloat(...)` of `render`. -/
def perMinOf (inp : Inputs) : JNum := parseFloatJS inp.perMin

/-- `const perMax = parseFloat(...)` of `render`. -/
def perMaxOf (inp : Inputs) : JNum := parseFloatJS inp.perMax

/-- `const pbrMin = parseFloat(...)` of `render`. -/
def pbrMinOf (inp : Inputs) : JNum := parseFloatJS inp.pbrMin

/-- `const pbrMax = parseFloat(...)` of `render`. -/
def pbrMaxOf (inp : Inputs) : JNum := parseFloatJS inp.pbrMax

/-- `const capMin = parseFloat(...) * 10000` of `render`. -/
def capMinOf (inp : Inputs) : JNum := scaleCapMin (parseFloatJS inp.capMin)

/-- The body of `allRows.filter(r => ...)` in `render`: the early-return
chain of the seven constraints, translated guard by guard. -/
def rowPass (inp : Inputs) (r : Row) : Bool :=
  if (inp.sector != "") && (r.sector != inp.sector) then false
  else if (!(searchOf inp).isEmpty) && (!hasSub (searchOf inp) (lowerChars r.name.data)) then false
  else if (!(perMinOf inp).isNaN) && jlt r.per (perMinOf inp) then false
  else if (!(perMaxOf inp).isNaN) && jgt r.per (perMaxOf inp) then false
  else if (!(pbrMinOf inp).isNaN) && jlt r.pbr (pbrMinOf inp) then false
  else if (!(pbrMaxOf inp).isNaN) && jgt r.pbr (pbrMaxOf inp) then false
  else if (!(capMinOf inp).isNaN) && jlt r.cap (capMinOf inp) then false
  else true

/-- The same chain with the four PER/PBR guards removed: the constraints
that can still reject a row whose PER and PBR are both `NaN`. -/
def nonRatioPass (inp : Inputs) (r : Row) : Bool :=
  if (inp.sector != "") && (r.sector != inp.sector) then false
  else if (!(searchOf inp).isEmpty) && (!hasSub (searchOf inp) (lowerChars r.name.data)) then false
  else if (!(capMinOf inp).isNaN) && jlt r.cap (capMinOf inp) then false
  else true

/-- The sort stage of `render`: `if (sortKey && sortKey !== "#")` the
filtered list is copied and sorted, otherwise left as filtered. -/
def sortGate (sortKey : String) (sortAsc : Bool) (rows : List Row) : List Row :=
  if (sortKey != "") && (sortKey != "#") then stableSort (rowLe sortAsc sortKey) rows else rows

/-- The row list `render` displays: filter, then sort. -/
def visibleRows (allRows : List Row) (sortKey : String) (sortAsc : Bool)
    (inp : Inputs) : List Row :=
  sortGate sortKey sortAsc (allRows.filter (rowPass inp))

theorem sortGate_perm (sortKey : String) (sortAsc : Bool) (rows : List Row) :
    (sortGate sortKey sortAsc rows).Perm rows := by
  unfold sortGate
  split
  · exact stableSort_perm _ rows
  · exact List.Perm.refl rows

/-! ### Cell formatting in `render` -/

/-- The market-cap cell: `cap >= 10000 ? (cap / 10000).toFixed(1) + "조"
: cap.toLocaleString() + "억"`. -/
def capCell (cap : JNum) : String :=
  if jge cap (.fin 10000) then jnumToFixed1 (jdiv10000 cap) ++ "조"
  else jnumToLocale cap ++ "억"

/-- The EPS and BPS cells: `Number.isFinite(v) ? v.toLocaleString() : "-"`. -/
def finiteCell (v : JNum) : String :=
  if v.isFinite then jnumToLocale v else "-"

example : capCell (.fin 12345) = "1.2조" := by decide
example : capCell (.fin 9999) = "9,999억" := by decide
example : finiteCell .nan = "-" := by decide
example : finiteCell (.fin 1234567) = "1,234,567" := by decide

/-! ### Sector enumeration (`init`) -/

/-- `[...new Set(list)]`: keep the first occurrence of each element, in
encounter order. -/
def dedupKeepFirst (l : List String) : List String :=
  l.foldl (fun acc s => if s ∈ acc then acc else acc ++ [s]) []

/-- The "keep before" relation of the comparator-less
`Array.prototype.sort` on strings (code-unit order; see `lexLt`). -/
def strLeB (a b : String) : Bool := !(lexLt b.data a.data)

/-- `[...new Set(allRows.map(r => r["섹터"]).filter(Boolean))].sort()`:
the distinct non-empty sector values, sorted. -/
def sectorList (rows : List Row) : List String :=
  stableSort strLeB (dedupKeepFirst ((rows.map Row.sector).filter (fun s => s != "")))

/-! ### The widget state machine

`Widget` is the module-scope state after a successful load: the dataset,
the sort state, the current control values, the sector dropdown options
appended by `init`, and the rendered body rows.  `step` is one event
handler dispatch: each handler mutates state and then calls `render`. -/

structure Widget where
  allRows : List Row
  sortKey : String
  sortAsc : Bool
  inputs : Inputs
  sectorOptions : List String
  rendered : List Row
deriving DecidableEq

/-- `render()`: recompute the displayed rows from the current state. -/
def render (w : Widget) : Widget :=
  { w with rendered := visibleRows w.allRows w.sortKey w.sortAsc w.inputs }

/-- The state established by a successful `init` for dataset `rows`:
module-scope initial sort state (`sortKey = "시가총액(억)"`,
`sortAsc = false`), empty controls, sector options appended once, and a
first `render()`. -/
def initWidget (rows : List Row) : Widget :=
  render { allRows := rows, sortKey := capKey, sortAsc := false,
           inputs := emptyInputs, sectorOptions := sectorList rows, rendered := [] }

/-- The user events the widget handles after load. -/
inductive Event where
  | clickHeader (i : ℕ)
  | setSector (v : String)
  | setSearch (v : String)
  | setPerMin (v : String)
  | setPerMax (v : String)
  | setPbrMin (v : String)
  | setPbrMax (v : String)
  | setCapMin (v : String)
  | clickReset
deriving DecidableEq

/-- The click handler `buildHeader` registers on the `i`-th header cell:
registered only for sortable columns; toggles the direction on the
current sort key, otherwise selects the new key with ascending default
except for the market-cap column; then `render()`. -/
def headerClick (w : Widget) (i : ℕ) : Widget :=
  match COLS[i]? with
  | none => w
  | some col =>
    if col.sortable then
      render (if w.sortKey = col.key
        then { w with sortAsc := !w.sortAsc }
        else { w with sortKey := col.key, sortAsc := col.key != capKey })
    else w

/-- One event dispatch. -/
def step (w : Widget) : Event → Widget
  | .clickHeader i => headerClick w i
  | .setSector v => render { w with inputs := { w.inputs with sector := v } }
  | .setSearch v => render { w with inputs := { w.inputs with search := v } }
  | .setPerMin v => render { w with inputs := { w.inputs with perMin := v } }
  | .setPerMax v => render { w with inputs := { w.inputs with perMax := v } }
  | .setPbrMin v => render { w with inputs := { w.inputs with pbrMin := v } }
  | .setPbrMax v => render { w with inputs := { w.inputs with pbrMax := v } }
  | .setCapMin v => render { w with inputs := { w.inputs with capMin := v } }
  | .clickReset => render { w with inputs := emptyInputs }

/-- Run a sequence of events. -/
def runEvents (w : Widget) (evs : List Event) : Widget := evs.foldl step w

/-! ### The loader (`init`) and its failure handling -/

/-- The parsed JSON document: `{ date, data }`. -/
structure Fund where
  date : String
  data : List Row
deriving DecidableEq

/-- The outcome of `res.json()`: a parsed document or a rejection with
an error message (malformed body). -/
inductive JsonOutcome where
  | ok (fund : Fund)
  | malformed (msg : String)
deriving DecidableEq

/-- The outcome of the single `fetch`: a rejection with an error message
(network failure), or a response with an HTTP status and a body. -/
inductive FetchOutcome where
  | netError (msg : String)
  | response (status : ℕ) (json : JsonOutcome)
deriving DecidableEq

/-- `res.ok`: status in the inclusive range 200..299. -/
def statusOk (status : ℕ) : Bool := (200 ≤ status) && (status ≤ 299)

/-- The visible page regions the widget writes to. -/
structure Page where
  statusVisible : Bool
  tableVisible : Bool
  statusText : String
  statusIsError : Bool
  dateText : String
  widget : Option Widget
deriving DecidableEq

/-- Modelled from the spec: the page shell around the widget is supplied
by an external template that is not part of the repository source; per
the spec's load-failure property the status region starts visible and
the table region starts hidden, and the widget only toggles them on a
successful load. -/
def initialPage : Page :=
  { statusVisible := true, tableVisible := false, statusText := "",
    statusIsError := false, dateText := "", widget := none }

/-- `"데이터를 불러오지 못했습니다. (" + e.message + ")"`, the text the
catch block writes into the status region. -/
def loadErrorText (m : String) : String :=
  "데이터를 불러오지 못했습니다. (" ++ (m ++ ")")

/-- `s.slice(a, b)` for `a ≤ b`. -/
def strSlice (s : String) (a b : ℕ) : String := String.mk ((s.data.drop a).take (b - a))

/-- The date label `"기준일: YYYY-MM-DD"` built from `fund.date`. -/
def dateLabel (d : String) : String :=
  "기준일: " ++ (strSlice d 0 4 ++ ("-" ++ (strSlice d 4 6 ++ ("-" ++ strSlice d 6 8))))

/-- `init()` run against the outcome of its one `fetch`: on success fill
the page and build the widget; on any failure (rejected fetch, non-ok
status, rejected `res.json()`) write the error message into the status
region and leave everything else, in particular the hidden table region,
untouched.  No retry happens: the result depends on one outcome only. -/
def initLoad (p : Page) (o : FetchOutcome) : Page :=
  match o with
  | .netError m => { p with statusText := loadErrorText m, statusIsError := true }
  | .response status j =>
    if statusOk status then
      match j with
      | .ok fund =>
        { p with dateText := dateLabel fund.date,
                 statusVisible := false, tableVisible := true,
                 widget := some (initWidget fund.data) }
      | .malformed m => { p with statusText := loadErrorText m, statusIsError := true }
    else { p with statusText := loadErrorText ("HTTP error: " ++ toString status),
                  statusIsError := true }

/-- The whole startup: the network is a stream of potential fetch
outcomes, and `init` consumes exactly the first one. -/
def initFromNet (net : ℕ → FetchOutcome) : Page := initLoad initialPage (net 0)

/-! ### Guard analysis of the filter -/

theorem jlt_nan_left (x : JNum) : jlt .nan x = false := by cases x <;> rfl

theorem jlt_nan_right (x : JNum) : jlt x .nan = false := by cases x <;> rfl

/-- `parseFloat` returns a finite number or `NaN`, never an infinity. -/
theorem parseFloat_fin_or_nan (s : String) :
    parseFloatJS s = .nan ∨ ∃ q, parseFloatJS s = .fin q := by
  unfold parseFloatJS
  simp only [parseFloatChars]
  split
  · exact Or.inl rfl
  · exact Or.inr ⟨_, rfl⟩

/-- The value of a numeric bound control when it is active: the parsed
number, or `none` when the control's content does not parse. -/
def activeBound (s : String) : Option ℚ :=
  match parseFloatJS s with
  | .fin q => some q
  | _ => none

/-- The filter chain as the conjunction of its seven guards all failing. -/
theorem rowPass_true_iff (inp : Inputs) (r : Row) : rowPass inp r = true ↔
    ((inp.sector != "") && (r.sector != inp.sector)) = false ∧
    ((!(searchOf inp).isEmpty) && (!hasSub (searchOf inp) (lowerChars r.name.data))) = false ∧
    ((!(perMinOf inp).isNaN) && jlt r.per (perMinOf inp)) = false ∧
    ((!(perMaxOf inp).isNaN) && jgt r.per (perMaxOf inp)) = false ∧
    ((!(pbrMinOf inp).isNaN) && jlt r.pbr (pbrMinOf inp)) = false ∧
    ((!(pbrMaxOf inp).isNaN) && jgt r.pbr (pbrMaxOf inp)) = false ∧
    ((!(capMinOf inp).isNaN) && jlt r.cap (capMinOf inp)) = false := by
  unfold rowPass
  split_ifs with h1 h2 h3 h4 h5 h6 h7 <;> simp_all

theorem min_guard_iff (s : String) (p : ℚ) :
    ((!(parseFloatJS s).isNaN) && jlt (.fin p) (parseFloatJS s)) = false ↔
      (∀ m, activeBound s = some m → m ≤ p) := by
  rcases parseFloat_fin_or_nan s with h | ⟨q, h⟩ <;> unfold activeBound <;> rw [h]
  · simp [JNum.isNaN]
  · simp [JNum.isNaN, jlt, not_lt]

theorem max_guard_iff (s : String) (p : ℚ) :
    ((!(parseFloatJS s).isNaN) && jgt (.fin p) (parseFloatJS s)) = false ↔
      (∀ M, activeBound s = some M → p ≤ M) := by
  rcases parseFloat_fin_or_nan s with h | ⟨q, h⟩ <;> unfold activeBound <;> rw [h]
  · simp [JNum.isNaN]
  · simp [JNum.isNaN, jgt, jlt, not_lt]

theorem cap_guard_iff (s : String) (c : ℚ) :
    ((!(scaleCapMin (parseFloatJS s)).isNaN) && jlt (.fin c) (scaleCapMin (parseFloatJS s))) = false ↔
      (∀ m, activeBound s = some m → m * 10000 ≤ c) := by
  rcases parseFloat_fin_or_nan s with h | ⟨q, h⟩ <;> unfold activeBound <;> rw [h]
  · simp [scaleCapMin, JNum.isNaN]
  · rw [scaleCapMin_fin]
    simp [JNum.isNaN, jlt, not_lt, mul_comm]

/-- The specification-side filter predicate of the claim: sector
equality when a sector is selected, case-insensitive substring match of
the trimmed search text against the name when non-empty, PER and PBR
within their inclusive optional bounds, and market cap at least the
entered value times 10000 when set; a control whose content does not
parse contributes no constraint. -/
def specPassP (inp : Inputs) (r : Row) : Prop :=
  (inp.sector ≠ "" → r.sector = inp.sector) ∧
  (searchOf inp ≠ [] → hasSub (searchOf inp) (lowerChars r.name.data) = true) ∧
  (∀ m p, activeBound inp.perMin = some m → r.per = .fin p → m ≤ p) ∧
  (∀ M p, activeBound inp.perMax = some M → r.per = .fin p → p ≤ M) ∧
  (∀ m p, activeBound inp.pbrMin = some m → r.pbr = .fin p → m ≤ p) ∧
  (∀ M p, activeBound inp.pbrMax = some M → r.pbr = .fin p → p ≤ M) ∧
  (∀ m c, activeBound inp.capMin = some m → r.cap = .fin c → m * 10000 ≤ c)

theorem sector_guard_iff (inp : Inputs) (r : Row) :
    ((inp.sector != "") && (r.sector != inp.sector)) = false ↔
      (inp.sector ≠ "" → r.sector = inp.sector) := by
  cases h1 : inp.sector == "" <;> cases h2 : r.sector == inp.sector <;>
    simp_all [bne]

theorem search_guard_iff (inp : Inputs) (r : Row) :
    ((!(searchOf inp).isEmpty) && (!hasSub (searchOf inp) (lowerChars r.name.data))) = false ↔
      (searchOf inp ≠ [] → hasSub (searchOf inp) (lowerChars r.name.data) = true) := by
  cases h1 : (searchOf inp).isEmpty <;>
    cases h2 : hasSub (searchOf inp) (lowerChars r.name.data) <;>
    simp_all [List.isEmpty_iff]

theorem forall_fin_iff (A : Option ℚ) (p : ℚ) (rel : ℚ → ℚ → Prop) :
    (∀ m, A = some m → rel m p) ↔
      (∀ m q, A = some m → JNum.fin p = JNum.fin q → rel m q) := by
  constructor
  · intro h m q hm hq
    injection hq with h'
    rw [← h']
    exact h m hm
  · intro h m hm
    exact h m p hm rfl

theorem rowPass_iff_spec (inp : Inputs) (r : Row)
    (hper : ∃ p, r.per = .fin p) (hpbr : ∃ p, r.pbr = .fin p)
    (hcap : ∃ c, r.cap = .fin c) :
    rowPass inp r = true ↔ specPassP inp r := by
  obtain ⟨p, hp⟩ := hper
  obtain ⟨b, hb⟩ := hpbr
  obtain ⟨c, hc⟩ := hcap
  rw [rowPass_true_iff]
  unfold specPassP
  rw [hp, hb, hc]
  unfold perMinOf perMaxOf pbrMinOf pbrMaxOf capMinOf
  rw [min_guard_iff, max_guard_iff, min_guard_iff, max_guard_iff, cap_guard_iff]
  exact and_congr (sector_guard_iff inp r)
    (and_congr (search_guard_iff inp r)
      (and_congr (forall_fin_iff _ p (fun m x => m ≤ x))
        (and_congr (forall_fin_iff _ p (fun M x => x ≤ M))
          (and_congr (forall_fin_iff _ b (fun m x => m ≤ x))
            (and_congr (forall_fin_iff _ b (fun M x => x ≤ M))
              (forall_fin_iff _ c (fun m x => m * 10000 ≤ x)))))))

/-! ### Sort-order helpers -/

theorem isFinite_iff (n : JNum) : n.isFinite = true ↔ ∃ q, n = .fin q := by
  cases n <;> simp [JNum.isFinite]

/-- The rational sort value of a row under a numeric key (defaults to 0
on the unreachable non-numeric cases). -/
def keyQ (k : String) (r : Row) : ℚ :=
  match r.get k with
  | .num (.fin q) => q
  | _ => 0

/-- The character-list sort value of a row under a string key. -/
def keyStr (k : String) (r : Row) : List Char :=
  match r.get k with
  | .str s => s.data
  | _ => []

theorem keyQ_eq (k : String) (r : Row) (q : ℚ) (h : r.get k = .num (.fin q)) :
    keyQ k r = q := by
  unfold keyQ
  rw [h]

theorem keyStr_eq (k : String) (r : Row) (s : String) (h : r.get k = .str s) :
    keyStr k r = s.data := by
  unfold keyStr
  rw [h]

theorem rowLe_num_asc (k : String) (a b : Row) (qa qb : ℚ)
    (ha : a.get k = .num (.fin qa)) (hb : b.get k = .num (.fin qb)) :
    rowLe true k a b = true ↔ qa ≤ qb := by
  unfold rowLe
  rw [ha, hb]
  simp [jsub_fin, jpos, sub_pos, not_lt]

theorem rowLe_num_desc (k : String) (a b : Row) (qa qb : ℚ)
    (ha : a.get k = .num (.fin qa)) (hb : b.get k = .num (.fin qb)) :
    rowLe false k a b = true ↔ qb ≤ qa := by
  unfold rowLe
  rw [ha, hb]
  simp [jsub_fin, jpos, sub_pos, not_lt]

theorem rowLe_str_asc (k : String) (a b : Row) (sa sb : String)
    (ha : a.get k = .str sa) (hb : b.get k = .str sb) :
    rowLe true k a b = !(lexLt sb.data sa.data) := by
  unfold rowLe
  rw [ha, hb]
  rfl

theorem rowLe_str_desc (k : String) (a b : Row) (sa sb : String)
    (ha : a.get k = .str sa) (hb : b.get k = .str sb) :
    rowLe false k a b = !(lexLt sa.data sb.data) := by
  unfold rowLe
  rw [ha, hb]
  rfl

/-! ### Sector-list helpers -/

theorem mem_dedup_foldl (l : List String) :
    ∀ (acc : List String) (x : String),
      (x ∈ l.foldl (fun acc s => if s ∈ acc then acc else acc ++ [s]) acc) ↔
        x ∈ acc ∨ x ∈ l := by
  induction l with
  | nil =>
    intro acc x
    simp
  | cons s t ih =>
    intro acc x
    rw [List.foldl_cons, ih]
    by_cases hs : s ∈ acc
    · rw [if_pos hs]
      simp only [List.mem_cons]
      constructor
      · intro h
        rcases h with h | h
        · exact Or.inl h
        · exact Or.inr (Or.inr h)
      · intro h
        rcases h with h | h | h
        · exact Or.inl h
        · rw [h]
          exact Or.inl hs
        · exact Or.inr h
    · rw [if_neg hs]
      simp only [List.mem_append, List.mem_singleton, List.mem_cons]
      tauto

theorem mem_dedupKeepFirst (l : List String) (x : String) :
    x ∈ dedupKeepFirst l ↔ x ∈ l := by
  unfold dedupKeepFirst
  rw [mem_dedup_foldl]
  simp

theorem nodup_dedup_foldl (l : List String) :
    ∀ acc : List String, acc.Nodup →
      (l.foldl (fun acc s => if s ∈ acc then acc else acc ++ [s]) acc).Nodup := by
  induction l with
  | nil =>
    intro acc h
    simpa using h
  | cons s t ih =>
    intro acc h
    rw [List.foldl_cons]
    by_cases hs : s ∈ acc
    · rw [if_pos hs]
      exact ih acc h
    · rw [if_neg hs]
      refine ih (acc ++ [s]) ?_
      refine List.nodup_append.mpr ⟨h, List.nodup_singleton s, ?_⟩
      intro y hy hys
      rw [List.mem_singleton] at hys
      subst hys
      exact hs hy

theorem nodup_dedupKeepFirst (l : List String) : (dedupKeepFirst l).Nodup :=
  nodup_dedup_foldl l [] List.nodup_nil

theorem strLeB_total (a b : String) : strLeB a b = false → strLeB b a = true := by
  unfold strLeB
  cases hx : lexLt b.data a.data with
  | false =>
    intro h
    simp at h
  | true =>
    intro _
    simp [lexLt_asymm b.data a.data hx]

theorem strLeB_trans (a b c : String) :
    strLeB a b = true → strLeB b c = true → strLeB a c = true := by
  unfold strLeB
  intro h1 h2
  rw [Bool.not_eq_true'] at h1 h2
  rw [Bool.not_eq_true']
  exact lexLt_false_trans _ _ _ h1 h2

/-! ### Character safety of the locale formatter (no "NaN" output) -/

theorem digitChar_ne_a (n : ℕ) : digitChar n ≠ 'a' := by
  unfold digitChar
  have h : n % 10 < 10 := Nat.mod_lt _ (by norm_num)
  revert h
  generalize n % 10 = m
  intro h
  interval_cases m <;> decide

theorem mem_natDigitsAux (fuel : ℕ) :
    ∀ n c, c ∈ natDigitsAux fuel n → ∃ m, c = digitChar m := by
  induction fuel with
  | zero =>
    intro n c hc
    simp [natDigitsAux] at hc
  | succ fuel ih =>
    intro n c hc
    unfold natDigitsAux at hc
    by_cases h : n < 10
    · rw [if_pos h] at hc
      rw [List.mem_singleton] at hc
      exact ⟨n, hc⟩
    · rw [if_neg h, List.mem_append] at hc
      rcases hc with hc | hc
      · exact ih _ c hc
      · rw [List.mem_singleton] at hc
        exact ⟨n % 10, hc⟩

theorem mem_natDigits (n : ℕ) (c : Char) (hc : c ∈ natDigits n) :
    ∃ m, c = digitChar m := mem_natDigitsAux _ n c hc

theorem mem_groupRevAux :
    ∀ (cs : List Char) (k : ℕ) (c : Char), c ∈ groupRevAux cs k → c = ',' ∨ c ∈ cs := by
  intro cs
  induction cs with
  | nil =>
    intro k c hc
    simp [groupRevAux] at hc
  | cons d rest ih =>
    intro k c hc
    unfold groupRevAux at hc
    rw [List.mem_append] at hc
    rcases hc with hc | hc
    · left
      split at hc <;> simp_all
    · rw [List.mem_cons] at hc
      rcases hc with hc | hc
      · right
        simp [hc]
      · rcases ih (k + 1) c hc with h | h
        · exact Or.inl h
        · right
          simp [h]

theorem mem_groupThousands (cs : List Char) (c : Char) (hc : c ∈ groupThousands cs) :
    c = ',' ∨ c ∈ cs := by
  unfold groupThousands at hc
  rw [List.mem_reverse] at hc
  rcases mem_groupRevAux cs.reverse 0 c hc with h | h
  · exact Or.inl h
  · exact Or.inr (List.mem_reverse.mp h)

theorem mem_trimZerosRight (cs : List Char) (c : Char) (hc : c ∈ trimZerosRight cs) :
    c ∈ cs := by
  unfold trimZerosRight at hc
  rw [List.mem_reverse] at hc
  exact List.mem_reverse.mp ((List.dropWhile_sublist _).subset hc)

theorem jsToLocaleChars_ne_a (q : ℚ) : ∀ c ∈ jsToLocaleChars q, c ≠ 'a' := by
  intro c hc
  unfold jsToLocaleChars at hc
  rw [List.mem_append] at hc
  rcases hc with hc | hc
  · split at hc
    · rw [List.mem_singleton] at hc
      rw [hc]
      decide
    · simp at hc
  · rw [List.mem_append] at hc
    rcases hc with hc | hc
    · rcases mem_groupThousands _ c hc with h | h
      · rw [h]; decide
      · obtain ⟨m, hm⟩ := mem_natDigits _ c h
        rw [hm]
        exact digitChar_ne_a m
    · split at hc
      · simp at hc
      · rw [List.mem_cons] at hc
        rcases hc with hc | hc
        · rw [hc]; decide
        · have h2 := mem_trimZerosRight _ c hc
          rw [List.mem_append] at h2
          rcases h2 with h2 | h2
          · rw [List.eq_of_mem_replicate h2]
            decide
          · obtain ⟨m, hm⟩ := mem_natDigits _ c h2
            rw [hm]
            exact digitChar_ne_a m

theorem mk_ne_NaN (cs : List Char) (h : ∀ c ∈ cs, c ≠ 'a') : String.mk cs ≠ "NaN" := by
  intro he
  have hd : cs = "NaN".data := congrArg String.data he
  have : 'a' ∈ cs := by
    rw [hd]
    decide
  exact h 'a' this rfl

/-! ### Step invariants of the state machine -/

theorem headerClick_sectorOptions (w : Widget) (i : ℕ) :
    (headerClick w i).sectorOptions = w.sectorOptions := by
  unfold headerClick
  cases COLS[i]? with
  | none => rfl
  | some col =>
    dsimp only
    by_cases hs : col.sortable = true
    · rw [if_pos hs]
      by_cases hk : w.sortKey = col.key
      · rw [if_pos hk]
        rfl
      · rw [if_neg hk]
        rfl
    · rw [if_neg hs]

theorem step_sectorOptions (w : Widget) (e : Event) :
    (step w e).sectorOptions = w.sectorOptions := by
  cases e with
  | clickHeader i => exact headerClick_sectorOptions w i
  | setSector v => rfl
  | setSearch v => rfl
  | setPerMin v => rfl
  | setPerMax v => rfl
  | setPbrMin v => rfl
  | setPbrMax v => rfl
  | setCapMin v => rfl
  | clickReset => rfl

theorem runEvents_sectorOptions (evs : List Event) :
    ∀ w : Widget, (runEvents w evs).sectorOptions = w.sectorOptions := by
  induction evs with
  | nil =>
    intro w
    rfl
  | cons e t ih =>
    intro w
    show (runEvents (step w e) t).sectorOptions = _
    rw [ih (step w e), step_sectorOptions]

theorem headerClick_sortKey_mem (w : Widget) (i : ℕ)
    (h : w.sortKey ∈ sortableKeys) : (headerClick w i).sortKey ∈ sortableKeys := by
  unfold headerClick
  cases hc : COLS[i]? with
  | none => exact h
  | some col =>
    dsimp only
    by_cases hs : col.sortable = true
    · rw [if_pos hs]
      by_cases hk : w.sortKey = col.key
      · rw [if_pos hk]
        exact h
      · rw [if_neg hk]
        show col.key ∈ sortableKeys
        unfold sortableKeys
        exact List.mem_map_of_mem Col.key (List.mem_filter.mpr ⟨List.getElem?_mem hc, hs⟩)
    · rw [if_neg hs]
      exact h

theorem step_sortKey_mem (w : Widget) (e : Event)
    (h : w.sortKey ∈ sortableKeys) : (step w e).sortKey ∈ sortableKeys := by
  cases e with
  | clickHeader i => exact headerClick_sortKey_mem w i h
  | setSector v => exact h
  | setSearch v => exact h
  | setPerMin v => exact h
  | setPerMax v => exact h
  | setPbrMin v => exact h
  | setPbrMax v => exact h
  | setCapMin v => exact h
  | clickReset => exact h

theorem runEvents_sortKey_mem (evs : List Event) :
    ∀ w : Widget, w.sortKey ∈ sortableKeys →
      (runEvents w evs).sortKey ∈ sortableKeys := by
  induction evs with
  | nil =>
    intro w h
    exact h
  | cons e t ih =>
    intro w h
    exact ih (step w e) (step_sortKey_mem w e h)

/-- With all controls at their defaults every row passes the filter. -/
theorem rowPass_empty (r : Row) : rowPass emptyInputs r = true := rfl

/-! ### The claims -/

/-- C1: for every dataset whose PER, PBR and market-cap fields are
finite numbers, every sort state and every filter state, the rendered
row set contains exactly the rows of the dataset that pass all active
constraints: sector equality when a sector is selected, case-insensitive
substring match of the search text against the name when non-empty, PER
and PBR within their inclusive, independently optional bounds, and
market cap at least the entered value times 10000 when set; a
non-numeric bound control is treated as unset.  No passing row is
omitted and no failing row is included. -/
theorem visible_filter_correct (allRows : List Row) (sortKey : String) (sortAsc : Bool)
    (inp : Inputs) (r : Row)
    (hfin : ∀ x ∈ allRows,
      x.per.isFinite = true ∧ x.pbr.isFinite = true ∧ x.cap.isFinite = true) :
    r ∈ visibleRows allRows sortKey sortAsc inp ↔ r ∈ allRows ∧ specPassP inp r := by
  unfold visibleRows
  rw [(sortGate_perm sortKey sortAsc _).mem_iff, List.mem_filter]
  constructor
  · rintro ⟨hmem, hpass⟩
    obtain ⟨h1, h2, h3⟩ := hfin r hmem
    exact ⟨hmem, (rowPass_iff_spec inp r ((isFinite_iff _).mp h1) ((isFinite_iff _).mp h2)
      ((isFinite_iff _).mp h3)).mp hpass⟩
  · rintro ⟨hmem, hspec⟩
    obtain ⟨h1, h2, h3⟩ := hfin r hmem
    exact ⟨hmem, (rowPass_iff_spec inp r ((isFinite_iff _).mp h1) ((isFinite_iff _).mp h2)
      ((isFinite_iff _).mp h3)).mpr hspec⟩

/-- Two sample rows for instantiating the filter theorem. -/
def rowSamsung : Row :=
  ⟨"005930", "삼성전자", "IT", .fin 4000000, .fin 12, .fin 1, .fin 5000, .fin 50000⟩

/-- A second sample row whose PER fails a min bound of 10. -/
def rowHynix : Row :=
  ⟨"000660", "SK하이닉스", "IT", .fin 1000000, .fin 5, .fin 2, .fin 100, .fin 1000⟩

theorem visible_filter_correct_witness :
    rowSamsung ∈ visibleRows [rowSamsung, rowHynix] capKey false ⟨"", "", "10", "", "", "", ""⟩ ↔
      rowSamsung ∈ [rowSamsung, rowHynix] ∧ specPassP ⟨"", "", "10", "", "", "", ""⟩ rowSamsung :=
  visible_filter_correct [rowSamsung, rowHynix] capKey false ⟨"", "", "10", "", "", "", ""⟩
    rowSamsung (by decide)

/-- C2: for every filtered row list and every sort key other than the
rank column, the sort stage produces a permutation of its input (a fresh
sequence; the model is pure, so the input is never mutated), ordered by
the comparator: with a numeric key whose values are finite, ascending
output is non-decreasing and descending output is non-increasing in the
key, strictly so on every pair with distinct key values, so toggling the
direction flag exactly reverses the relative order of every such pair;
with a string key the same holds under locale (code-point) string
comparison. -/
theorem sort_spec (k : String) (rows : List Row) (hk : k ≠ "" ∧ k ≠ "#") :
    ((sortGate k true rows).Perm rows ∧ (sortGate k false rows).Perm rows) ∧
    ((∀ r ∈ rows, ∃ q, r.get k = JVal.num (JNum.fin q)) →
      (sortGate k true rows).Pairwise
        (fun a b => keyQ k a ≤ keyQ k b ∧ (keyQ k a ≠ keyQ k b → keyQ k a < keyQ k b)) ∧
      (sortGate k false rows).Pairwise
        (fun a b => keyQ k b ≤ keyQ k a ∧ (keyQ k a ≠ keyQ k b → keyQ k b < keyQ k a))) ∧
    ((∀ r ∈ rows, ∃ s, r.get k = JVal.str s) →
      (sortGate k true rows).Pairwise
        (fun a b => lexLt (keyStr k b) (keyStr k a) = false ∧
          (keyStr k a ≠ keyStr k b → lexLt (keyStr k a) (keyStr k b) = true)) ∧
      (sortGate k false rows).Pairwise
        (fun a b => lexLt (keyStr k a) (keyStr k b) = false ∧
          (keyStr k a ≠ keyStr k b → lexLt (keyStr k b) (keyStr k a) = true))) := by
  have hcond : ((k != "") && (k != "#")) = true := by
    simp [hk.1, hk.2]
  have hgate : ∀ b : Bool, sortGate k b rows = stableSort (rowLe b k) rows := by
    intro b
    unfold sortGate
    rw [if_pos hcond]
  refine ⟨⟨by rw [hgate]; exact stableSort_perm _ _,
           by rw [hgate]; exact stableSort_perm _ _⟩, ?_, ?_⟩
  · intro hnum
    have hmem : ∀ b : Bool, ∀ a ∈ stableSort (rowLe b k) rows,
        ∃ q, a.get k = JVal.num (JNum.fin q) :=
      fun b a ha => hnum a ((mem_stableSort _ _ _).mp ha)
    constructor
    · rw [hgate]
      have hbase := pairwise_stableSort (rowLe true k)
        (fun r => ∃ q, r.get k = JVal.num (JNum.fin q))
        (fun a b ⟨qa, ha⟩ ⟨qb, hb⟩ hf => by
          refine (rowLe_num_asc k b a qb qa hb ha).mpr ?_
          by_contra hnle
          rw [(rowLe_num_asc k a b qa qb ha hb).mpr (le_of_not_le hnle)] at hf
          simp at hf)
        (fun a b c ⟨qa, ha⟩ ⟨qb, hb⟩ ⟨qc, hc⟩ h1 h2 =>
          (rowLe_num_asc k a c qa qc ha hc).mpr
            (le_trans ((rowLe_num_asc k a b qa qb ha hb).mp h1)
              ((rowLe_num_asc k b c qb qc hb hc).mp h2)))
        rows hnum
      refine List.Pairwise.imp_of_mem ?_ hbase
      intro a b ha hb hR
      obtain ⟨qa, hqa⟩ := hmem true a ha
      obtain ⟨qb, hqb⟩ := hmem true b hb
      rw [keyQ_eq k a qa hqa, keyQ_eq k b qb hqb]
      have hle := (rowLe_num_asc k a b qa qb hqa hqb).mp hR
      exact ⟨hle, fun hne => lt_of_le_of_ne hle hne⟩
    · rw [hgate]
      have hbase := pairwise_stableSort (rowLe false k)
        (fun r => ∃ q, r.get k = JVal.num (JNum.fin q))
        (fun a b ⟨qa, ha⟩ ⟨qb, hb⟩ hf => by
          refine (rowLe_num_desc k b a qb qa hb ha).mpr ?_
          by_contra hnle
          rw [(rowLe_num_desc k a b qa qb ha hb).mpr (le_of_not_le hnle)] at hf
          simp at hf)
        (fun a b c ⟨qa, ha⟩ ⟨qb, hb⟩ ⟨qc, hc⟩ h1 h2 =>
          (rowLe_num_desc k a c qa qc ha hc).mpr
            (le_trans ((rowLe_num_desc k b c qb qc hb hc).mp h2)
              ((rowLe_num_desc k a b qa qb ha hb).mp h1)))
        rows hnum
      refine List.Pairwise.imp_of_mem ?_ hbase
      intro a b ha hb hR
      obtain ⟨qa, hqa⟩ := hmem false a ha
      obtain ⟨qb, hqb⟩ := hmem false b hb
      rw [keyQ_eq k a qa hqa, keyQ_eq k b qb hqb]
      have hle := (rowLe_num_desc k a b qa qb hqa hqb).mp hR
      exact ⟨hle, fun hne => lt_of_le_of_ne hle (Ne.symm hne)⟩
  · intro hstr
    have hmem : ∀ b : Bool, ∀ a ∈ stableSort (rowLe b k) rows, ∃ s, a.get k = JVal.str s :=
      fun b a ha => hstr a ((mem_stableSort _ _ _).mp ha)
    constructor
    · rw [hgate]
      have hbase := pairwise_stableSort (rowLe true k)
        (fun r => ∃ s, r.get k = JVal.str s)
        (fun a b ⟨sa, ha⟩ ⟨sb, hb⟩ hf => by
          rw [rowLe_str_asc k a b sa sb ha hb] at hf
          rw [rowLe_str_asc k b a sb sa hb ha]
          rw [Bool.not_eq_false'] at hf
          rw [Bool.not_eq_true']
          exact lexLt_asymm _ _ hf)
        (fun a b c ⟨sa, ha⟩ ⟨sb, hb⟩ ⟨sc, hc⟩ h1 h2 => by
          rw [rowLe_str_asc k a b sa sb ha hb] at h1
          rw [rowLe_str_asc k b c sb sc hb hc] at h2
          rw [rowLe_str_asc k a c sa sc ha hc]
          rw [Bool.not_eq_true'] at h1 h2
          rw [Bool.not_eq_true']
          exact lexLt_false_trans _ _ _ h1 h2)
        rows hstr
      refine List.Pairwise.imp_of_mem ?_ hbase
      intro a b ha hb hR
      obtain ⟨sa, hsa⟩ := hmem true a ha
      obtain ⟨sb, hsb⟩ := hmem true b hb
      rw [rowLe_str_asc k a b sa sb hsa hsb, Bool.not_eq_true'] at hR
      rw [keyStr_eq k a sa hsa, keyStr_eq k b sb hsb]
      refine ⟨hR, fun hne => ?_⟩
      cases h : lexLt sa.data sb.data with
      | true => rfl
      | false => exact absurd (lexLt_eq_of_not sa.data sb.data h hR) hne
    · rw [hgate]
      have hbase := pairwise_stableSort (rowLe false k)
        (fun r => ∃ s, r.get k = JVal.str s)
        (fun a b ⟨sa, ha⟩ ⟨sb, hb⟩ hf => by
          rw [rowLe_str_desc k a b sa sb ha hb] at hf
          rw [rowLe_str_desc k b a sb sa hb ha]
          rw [Bool.not_eq_false'] at hf
          rw [Bool.not_eq_true']
          exact lexLt_asymm _ _ hf)
        (fun a b c ⟨sa, ha⟩ ⟨sb, hb⟩ ⟨sc, hc⟩ h1 h2 => by
          rw [rowLe_str_desc k a b sa sb ha hb] at h1
          rw [rowLe_str_desc k b c sb sc hb hc] at h2
          rw [rowLe_str_desc k a c sa sc ha hc]
          rw [Bool.not_eq_true'] at h1 h2
          rw [Bool.not_eq_true']
          exact lexLt_false_trans _ _ _ h2 h1)
        rows hstr
      refine List.Pairwise.imp_of_mem ?_ hbase
      intro a b ha hb hR
      obtain ⟨sa, hsa⟩ := hmem false a ha
      obtain ⟨sb, hsb⟩ := hmem false b hb
      rw [rowLe_str_desc k a b sa sb hsa hsb, Bool.not_eq_true'] at hR
      rw [keyStr_eq k a sa hsa, keyStr_eq k b sb hsb]
      refine ⟨hR, fun hne => ?_⟩
      cases h : lexLt sb.data sa.data with
      | true => rfl
      | false => exact absurd (lexLt_eq_of_not sa.data sb.data hR h) hne

/-- Three sample rows with PER values 5, 1 and 3 for instantiating the
sort theorem. -/
def sampleRows : List Row :=
  [⟨"A", "에이", "IT", .fin 100, .fin 5, .fin 1, .fin 1, .fin 1⟩,
   ⟨"B", "비", "IT", .fin 200, .fin 1, .fin 1, .fin 1, .fin 1⟩,
   ⟨"C", "씨", "금융", .fin 300, .fin 3, .fin 1, .fin 1, .fin 1⟩]

theorem sort_spec_witness :
    ((sortGate "PER" true sampleRows).Perm sampleRows ∧
      (sortGate "PER" false sampleRows).Perm sampleRows) ∧
    ((∀ r ∈ sampleRows, ∃ q, r.get "PER" = JVal.num (JNum.fin q)) →
      (sortGate "PER" true sampleRows).Pairwise
        (fun a b => keyQ "PER" a ≤ keyQ "PER" b ∧
          (keyQ "PER" a ≠ keyQ "PER" b → keyQ "PER" a < keyQ "PER" b)) ∧
      (sortGate "PER" false sampleRows).Pairwise
        (fun a b => keyQ "PER" b ≤ keyQ "PER" a ∧
          (keyQ "PER" a ≠ keyQ "PER" b → keyQ "PER" b < keyQ "PER" a))) ∧
    ((∀ r ∈ sampleRows, ∃ s, r.get "PER" = JVal.str s) →
      (sortGate "PER" true sampleRows).Pairwise
        (fun a b => lexLt (keyStr "PER" b) (keyStr "PER" a) = false ∧
          (keyStr "PER" a ≠ keyStr "PER" b → lexLt (keyStr "PER" a) (keyStr "PER" b) = true)) ∧
      (sortGate "PER" false sampleRows).Pairwise
        (fun a b => lexLt (keyStr "PER" a) (keyStr "PER" b) = false ∧
          (keyStr "PER" a ≠ keyStr "PER" b → lexLt (keyStr "PER" b) (keyStr "PER" a) = true))) :=
  sort_spec "PER" sampleRows (by decide)

/-- C3: activating the reset control sets every filter input to its
empty default and re-runs the pipeline, so the rendered set is the whole
dataset (its row count equals the dataset size), while the sort key and
direction are unchanged. -/
theorem reset_spec (w : Widget) :
    (step w .clickReset).inputs = emptyInputs ∧
    (step w .clickReset).sortKey = w.sortKey ∧
    (step w .clickReset).sortAsc = w.sortAsc ∧
    (step w .clickReset).rendered = sortGate w.sortKey w.sortAsc w.allRows ∧
    (step w .clickReset).rendered.length = w.allRows.length := by
  have hfilter : w.allRows.filter (rowPass emptyInputs) = w.allRows :=
    List.filter_eq_self.mpr (fun a _ => rowPass_empty a)
  have hrend : (step w .clickReset).rendered = sortGate w.sortKey w.sortAsc w.allRows := by
    show visibleRows w.allRows w.sortKey w.sortAsc emptyInputs = _
    unfold visibleRows
    rw [hfilter]
  refine ⟨rfl, rfl, rfl, hrend, ?_⟩
  rw [hrend]
  exact (sortGate_perm _ _ _).length_eq

theorem contains_loadErrorText (m : String) : strContains (loadErrorText m) m = true := by
  unfold strContains loadErrorText
  rw [String.data_append, String.data_append]
  exact hasSub_append _ _ _

theorem contains_loadErrorText_inner (pre m : String) :
    strContains (loadErrorText (pre ++ m)) m = true := by
  unfold strContains loadErrorText
  rw [String.data_append, String.data_append, String.data_append]
  rw [List.append_assoc pre.data m.data, ← List.append_assoc]
  exact hasSub_append _ _ _

/-- C4: for every load failure -- rejected fetch, non-success HTTP
status, or malformed JSON body -- the status region shows the
human-readable load-failure message embedding the underlying reason (for
an HTTP status failure the message contains the status code), the table
region stays hidden, and no retry happens (only the first fetch outcome
determines the result). -/
theorem loadFailure_spec (net : ℕ → FetchOutcome) :
    (∀ m, net 0 = .netError m →
      (initFromNet net).statusText = loadErrorText m ∧
      strContains (initFromNet net).statusText m = true ∧
      (initFromNet net).tableVisible = false) ∧
    (∀ status j, net 0 = .response status j → statusOk status = false →
      (initFromNet net).statusText = loadErrorText ("HTTP error: " ++ toString status) ∧
      strContains (initFromNet net).statusText (toString status) = true ∧
      (initFromNet net).tableVisible = false) ∧
    (∀ status m, net 0 = .response status (.malformed m) → statusOk status = true →
      (initFromNet net).statusText = loadErrorText m ∧
      strContains (initFromNet net).statusText m = true ∧
      (initFromNet net).tableVisible = false) ∧
    (∀ net' : ℕ → FetchOutcome, net' 0 = net 0 → initFromNet net' = initFromNet net) := by
  refine ⟨?_, ?_, ?_, ?_⟩
  · intro m h
    unfold initFromNet
    rw [h]
    exact ⟨rfl, contains_loadErrorText m, rfl⟩
  · intro status j h hbad
    unfold initFromNet
    rw [h]
    unfold initLoad
    dsimp only
    rw [if_neg (by simp [hbad])]
    exact ⟨rfl, contains_loadErrorText_inner "HTTP error: " (toString status), rfl⟩
  · intro status m h hok
    unfold initFromNet
    rw [h]
    unfold initLoad
    dsimp only
    rw [if_pos hok]
    exact ⟨rfl, contains_loadErrorText m, rfl⟩
  · intro net' h
    unfold initFromNet
    rw [h]

theorem loadFailure_spec_witness :
    (initFromNet (fun _ => .response 500 (.ok ⟨"20240101", []⟩))).statusText =
        loadErrorText ("HTTP error: " ++ toString 500) ∧
    strContains (initFromNet (fun _ => .response 500 (.ok ⟨"20240101", []⟩))).statusText
        (toString 500) = true ∧
    (initFromNet (fun _ => .response 500 (.ok ⟨"20240101", []⟩))).tableVisible = false :=
  (loadFailure_spec (fun _ => .response 500 (.ok ⟨"20240101", []⟩))).2.1
    500 (.ok ⟨"20240101", []⟩) rfl (by decide)

/-- C5: clicking the header of a sortable column that is not the current
sort key makes it the sort key with default direction descending for the
market-cap column and ascending for every other column; clicking the
header of the current sort key keeps the key and toggles the
direction. -/
theorem headerClick_spec (w : Widget) (i : ℕ) (col : Col)
    (hcol : COLS[i]? = some col) (hs : col.sortable = true) :
    (w.sortKey ≠ col.key →
      (step w (.clickHeader i)).sortKey = col.key ∧
      (col.key = capKey → (step w (.clickHeader i)).sortAsc = false) ∧
      (col.key ≠ capKey → (step w (.clickHeader i)).sortAsc = true)) ∧
    (w.sortKey = col.key →
      (step w (.clickHeader i)).sortKey = w.sortKey ∧
      (step w (.clickHeader i)).sortAsc = !w.sortAsc) := by
  have hbody : step w (.clickHeader i) =
      (if w.sortKey = col.key
        then render { w with sortAsc := !w.sortAsc }
        else render { w with sortKey := col.key, sortAsc := col.key != capKey }) := by
    show headerClick w i = _
    unfold headerClick
    rw [hcol]
    dsimp only
    rw [if_pos hs]
    by_cases hk : w.sortKey = col.key
    · rw [if_pos hk, if_pos hk]
    · rw [if_neg hk, if_neg hk]
  rw [hbody]
  constructor
  · intro hne
    rw [if_neg hne]
    refine ⟨rfl, ?_, ?_⟩
    · intro hcap
      show (col.key != capKey) = false
      simp [hcap]
    · intro hncap
      show (col.key != capKey) = true
      simp [hncap]
  · intro heq
    rw [if_pos heq]
    exact ⟨rfl, rfl⟩

theorem headerClick_spec_witness :
    ((initWidget []).sortKey ≠ "PER" →
      (step (initWidget []) (.clickHeader 5)).sortKey = "PER" ∧
      ("PER" = capKey → (step (initWidget []) (.clickHeader 5)).sortAsc = false) ∧
      ("PER" ≠ capKey → (step (initWidget []) (.clickHeader 5)).sortAsc = true)) ∧
    ((initWidget []).sortKey = "PER" →
      (step (initWidget []) (.clickHeader 5)).sortKey = (initWidget []).sortKey ∧
      (step (initWidget []) (.clickHeader 5)).sortAsc = !(initWidget []).sortAsc) :=
  headerClick_spec (initWidget []) 5 ⟨"PER", "PER", false, true⟩ rfl rfl

/-- C6: after load the sector dropdown holds exactly the distinct
non-empty sector values of the dataset, without duplicates, sorted by
the string order `strLeB` (on this dataset's Hangul strings, code-point
order coincides with the Korean locale order), and this option list is
computed once: no later event recomputes or changes it. -/
theorem sectors_spec (rows : List Row) :
    (initWidget rows).sectorOptions = sectorList rows ∧
    (∀ s, s ∈ (initWidget rows).sectorOptions ↔ s ≠ "" ∧ s ∈ rows.map Row.sector) ∧
    (initWidget rows).sectorOptions.Nodup ∧
    (initWidget rows).sectorOptions.Pairwise (fun a b => strLeB a b = true) ∧
    (∀ evs, (runEvents (initWidget rows) evs).sectorOptions =
      (initWidget rows).sectorOptions) := by
  have h0 : (initWidget rows).sectorOptions = sectorList rows := rfl
  refine ⟨rfl, ?_, ?_, ?_, ?_⟩
  · intro s
    rw [h0]
    unfold sectorList
    rw [mem_stableSort, mem_dedupKeepFirst, List.mem_filter]
    simp only [bne_iff_ne, ne_eq]
    exact and_comm
  · rw [h0]
    unfold sectorList
    exact ((stableSort_perm _ _).nodup_iff).mpr (nodup_dedupKeepFirst _)
  · rw [h0]
    unfold sectorList
    exact pairwise_stableSort strLeB (fun _ => True)
      (fun a b _ _ h => strLeB_total a b h)
      (fun a b c _ _ _ h1 h2 => strLeB_trans a b c h1 h2)
      _ (fun _ _ => trivial)
  · intro evs
    exact runEvents_sectorOptions evs _

/-- C7: a finite market-cap value of at least 10000 hundred-millions
renders as the value divided by 10000 with one decimal place and the
large-unit suffix; a smaller value renders as a thousands-grouped number
with the small-unit suffix; in particular 12345 renders as "1.2조" and
9999 as "9,999억". -/
theorem capCell_spec (cap : ℚ) :
    (10000 ≤ cap → capCell (.fin cap) = String.mk (jsToFixed1Chars (cap / 10000)) ++ "조") ∧
    (cap < 10000 → capCell (.fin cap) = String.mk (jsToLocaleChars cap) ++ "억") ∧
    capCell (.fin 12345) = "1.2조" ∧
    capCell (.fin 9999) = "9,999억" := by
  refine ⟨?_, ?_, by decide, by decide⟩
  · intro h
    unfold capCell
    have hc : jge (.fin cap) (.fin 10000) = true := by
      simp [jge, h]
    rw [if_pos hc, jdiv10000_fin]
    rfl
  · intro h
    unfold capCell
    have hc : jge (.fin cap) (.fin 10000) = false := by
      simp [jge]
      exact h
    rw [if_neg (by simp [hc])]
    rfl

theorem capCell_spec_witness :
    (capCell (.fin 12345) = String.mk (jsToFixed1Chars ((12345 : ℚ) / 10000)) ++ "조") ∧
    capCell (.fin 12345) = "1.2조" ∧
    capCell (.fin 9999) = "9,999억" :=
  ⟨(capCell_spec 12345).1 (by decide), (capCell_spec 12345).2.2.1, (capCell_spec 12345).2.2.2⟩

/-- C8: an EPS or BPS cell renders the placeholder dash for an absent or
non-finite value, never renders "NaN", and renders a finite value
through the grouping locale formatter; the formatter is a total
function, so rendering cannot throw. -/
theorem finiteCell_spec (v : JNum) :
    (v.isFinite = false → finiteCell v = "-") ∧
    finiteCell v ≠ "NaN" ∧
    (∀ q, v = .fin q → finiteCell v = String.mk (jsToLocaleChars q)) := by
  refine ⟨?_, ?_, ?_⟩
  · intro h
    unfold finiteCell
    rw [if_neg (by simp [h])]
  · unfold finiteCell
    cases v with
    | fin q => exact mk_ne_NaN _ (jsToLocaleChars_ne_a q)
    | nan => decide
    | posInf => decide
    | negInf => decide
  · intro q h
    rw [h]
    rfl

theorem finiteCell_spec_witness :
    finiteCell .nan = "-" ∧ finiteCell .nan ≠ "NaN" ∧
    finiteCell (.fin 1234567) = String.mk (jsToLocaleChars 1234567) :=
  ⟨(finiteCell_spec .nan).1 rfl, (finiteCell_spec .nan).2.1,
    (finiteCell_spec (.fin 1234567)).2.2 1234567 rfl⟩

/-- C9: in the initial state after load and after any sequence of
events, the current sort key is the key of a sortable column of `COLS`;
in particular the synthetic rank column "#" is never the sort key. -/
theorem sortKey_always_sortable (rows : List Row) (evs : List Event) :
    (runEvents (initWidget rows) evs).sortKey ∈ sortableKeys ∧
    (runEvents (initWidget rows) evs).sortKey ≠ "#" := by
  have hinit : (initWidget rows).sortKey ∈ sortableKeys := by
    show capKey ∈ sortableKeys
    decide
  have hmem := runEvents_sortKey_mem evs (initWidget rows) hinit
  refine ⟨hmem, ?_⟩
  have hall : ∀ s ∈ sortableKeys, s ≠ "#" := by decide
  exact hall _ hmem

/-- C10: a row whose PER (respectively PBR) is `NaN` passes the PER
(respectively PBR) min and max guards no matter what bounds are entered,
because every ordered comparison against `NaN` is false; a row with both
ratios `NaN` is filtered exactly by the remaining sector, name and
market-cap constraints. -/
theorem nanRatio_spec (inp : Inputs) (r : Row) :
    (r.per = .nan → jlt r.per (perMinOf inp) = false ∧ jgt r.per (perMaxOf inp) = false) ∧
    (r.pbr = .nan → jlt r.pbr (pbrMinOf inp) = false ∧ jgt r.pbr (pbrMaxOf inp) = false) ∧
    (r.per = .nan → r.pbr = .nan → rowPass inp r = nonRatioPass inp r) := by
  refine ⟨?_, ?_, ?_⟩
  · intro h
    rw [h]
    exact ⟨jlt_nan_left _, jlt_nan_right _⟩
  · intro h
    rw [h]
    exact ⟨jlt_nan_left _, jlt_nan_right _⟩
  · intro hper hpbr
    unfold rowPass nonRatioPass
    rw [hper, hpbr]
    simp [jgt, jlt_nan_left, jlt_nan_right]

theorem nanRatio_spec_witness :
    (jlt JNum.nan (perMinOf ⟨"", "", "5", "10", "1", "2", ""⟩) = false ∧
      jgt JNum.nan (perMaxOf ⟨"", "", "5", "10", "1", "2", ""⟩) = false) ∧
    (jlt JNum.nan (pbrMinOf ⟨"", "", "5", "10", "1", "2", ""⟩) = false ∧
      jgt JNum.nan (pbrMaxOf ⟨"", "", "5", "10", "1", "2", ""⟩) = false) ∧
    rowPass ⟨"", "", "5", "10", "1", "2", ""⟩
        ⟨"t", "n", "s", .fin 100, .nan, .nan, .nan, .nan⟩ =
      nonRatioPass ⟨"", "", "5", "10", "1", "2", ""⟩
        ⟨"t", "n", "s", .fin 100, .nan, .nan, .nan, .nan⟩ := by
  have h := nanRatio_spec ⟨"", "", "5", "10", "1", "2", ""⟩
    ⟨"t", "n", "s", .fin 100, .nan, .nan, .nan, .nan⟩
  exact ⟨h.1 rfl, h.2.1 rfl, h.2.2 rfl rfl⟩

end KospiWidget
